import Mathlib

/-!
# Verification of the msr-archiver acquisition core

Shallow embedding of the concurrent acquisition engine of `msr-archiver`:
the retry executor (`withRetry` / `withRetryResult` in `cmd/main.go`), the
TTL freshness check (`shouldUseCachedAlbums`), the catalog cache
(`internal/catalog`), the completion store (`internal/state`), the worker
pool (`internal/worker`) and the progress-tracked downloader
(`internal/download`).  Go machine integers are modelled as `Int`/`Nat`;
wall-clock instants and durations as `Int` (milliseconds or nanoseconds as
noted); fallible operations return `Option`/`Except`; context cancellation
is modelled as an explicit boolean signal.
-/

set_option maxHeartbeats 1000000

namespace MSR

/-! ## Retry executor (`cmd/main.go`, `withRetry` / `withRetryResult`)

The Go loop runs attempts `i = 1 .. attempts` (after coercing `attempts < 1`
to `1`).  A failed non-final attempt is followed by
`select { <-ctx.Done(); <-time.After(i * 400ms) }`: `cancelledAt i` records
whether the `Done` channel is the case the select takes after attempt `i`
(for a context cancelled before or during the wait window this is the only
ready case and is taken; for a never-cancelled context the timer fires and
`cancelledAt i = false`).  `fn j` is the outcome of the `j`-th invocation of
the operation.  Each embedding returns the result, the number of invocations
performed, and the list of fully elapsed backoff waits in milliseconds. -/

/-- Outcome of a retry-executor call: the operation's success value, the
operation's own last failure, or the context's cancellation error. -/
inductive RetryRes (E A : Type) where
  | success (a : A)
  | failure (e : E)
  | cancelled
  deriving DecidableEq, Repr

/-- Loop of Go `withRetryResult` from attempt number `i` with `remaining`
attempts left (`remaining = attempts - i + 1`); the `remaining = 0` case is
never reached from the entry point, which starts with `remaining ≥ 1`. -/
def retryResultFrom (fn : Nat → Except E A) (cancelledAt : Nat → Bool) :
    Nat → Nat → RetryRes E A × Nat × List Nat
  | _, 0 => (.cancelled, 0, [])
  | i, remaining + 1 =>
    match fn i with
    | .ok a => (.success a, 1, [])
    | .error e =>
      if remaining = 0 then (.failure e, 1, [])
      else if cancelledAt i then (.cancelled, 1, [])
      else
        let r := retryResultFrom fn cancelledAt (i + 1) remaining
        (r.1, r.2.1 + 1, i * 400 :: r.2.2)

/-- Go coercion of the `attempts` argument: `if attempts < 1 { attempts = 1 }`. -/
def goAttempts (attempts : Int) : Nat :=
  if attempts < 1 then 1 else attempts.toNat

/-- Go `withRetryResult` (`cmd/main.go`): result, invocation count,
completed backoff waits (ms). -/
def withRetryResult (fn : Nat → Except E A) (cancelledAt : Nat → Bool)
    (attempts : Int) : RetryRes E A × Nat × List Nat :=
  retryResultFrom fn cancelledAt 1 (goAttempts attempts)

/-- Loop of Go `withRetry`: identical control flow, via an operation that
returns only an error (`none` = success). -/
def retryFrom (fn : Nat → Option E) (cancelledAt : Nat → Bool) :
    Nat → Nat → RetryRes E Unit × Nat × List Nat
  | _, 0 => (.cancelled, 0, [])
  | i, remaining + 1 =>
    match fn i with
    | none => (.success (), 1, [])
    | some e =>
      if remaining = 0 then (.failure e, 1, [])
      else if cancelledAt i then (.cancelled, 1, [])
      else
        let r := retryFrom fn cancelledAt (i + 1) remaining
        (r.1, r.2.1 + 1, i * 400 :: r.2.2)

/-- Go `withRetry` (`cmd/main.go`). -/
def withRetry (fn : Nat → Option E) (cancelledAt : Nat → Bool)
    (attempts : Int) : RetryRes E Unit × Nat × List Nat :=
  retryFrom fn cancelledAt 1 (goAttempts attempts)

/-! ## TTL freshness check (`cmd/main.go`, `shouldUseCachedAlbums`)

`time.Time` instants are epoch nanoseconds, with the zero `time.Time`
(`IsZero`) modelled as `none`; `time.Duration` is `Int` nanoseconds. -/

/-- Go `shouldUseCachedAlbums(cachedAt, ttl, now)`. -/
def shouldUseCachedAlbums (cachedAt : Option Int) (ttl : Int) (now : Int) :
    Bool :=
  if ttl ≤ 0 then true
  else
    match cachedAt with
    | none => false
    | some t =>
      let age := now - t
      if age < 0 then true else decide (age ≤ ttl)

/-! ## Filesystem model

The persisted-file side effects of the cache and the completion store are
modelled as a map from path to parsed file content; the temp-file-plus-
rename sequence the Go code uses has, on its success path, the net effect
of replacing the destination path's content. -/

/-- A directory of files holding contents of type `α`; `none` = the file
does not exist. -/
abbrev FS (α : Type) := String → Option α

/-- Atomic replacement of the file at `p` with content `v`. -/
def FS.update (fs : FS α) (p : String) (v : α) : FS α :=
  fun q => if q = p then some v else fs q

/-! ## Catalog cache (`internal/catalog`) -/

/-- `model.Album` (`internal/model/types.go`): cid, name, coverUrl,
artistes. -/
structure Album where
  cid : String
  name : String
  coverUrl : String
  artistes : List String
  deriving DecidableEq, Repr

/-- The JSON payload of the album cache file: `fetchedAt` is the RFC3339
string, modelled as the whole-second epoch value it denotes (`none` models
the empty string); JSON (un)marshalling of the Go `payload` struct is
injective, so file contents are modelled structurally (an ill-formed or
hand-edited file is outside this model). -/
structure CachePayload where
  fetchedAt : Option Int
  albums : List Album
  deriving DecidableEq

/-- `time.Now().UTC().Format(time.RFC3339)`: formatting truncates the
epoch-nanosecond instant to whole seconds. -/
def rfc3339OfNs (ns : Int) : Int := ns / 1000000000

/-- `time.Parse(time.RFC3339, s)` of a formatted whole-second value, back
to an epoch-nanosecond instant. -/
def nsOfRfc3339 (sec : Int) : Int := sec * 1000000000

/-- `Cache.Save`: marshal the payload with the current wall clock as
`fetchedAt` and atomically replace the file at `path`. -/
def cacheSave (path : String) (nowNs : Int) (albums : List Album)
    (fs : FS CachePayload) : FS CachePayload :=
  FS.update fs path { fetchedAt := some (rfc3339OfNs nowNs), albums := albums }

/-- `Cache.Load` error cases: a missing file is reported as
`os.ErrNotExist`, distinct from unmarshal/timestamp-parse failures. -/
inductive CacheLoadErr where
  | notExist
  | parseErr
  deriving DecidableEq, Repr

/-- `Cache.Load`: read the file at `path` (missing ⇒ `notExist`),
unmarshal, and parse `fetchedAt` (empty string ⇒ zero `time.Time`,
modelled as `none`). -/
def cacheLoad (path : String) (fs : FS CachePayload) :
    Except CacheLoadErr (List Album × Option Int) :=
  match fs path with
  | none => .error .notExist
  | some p => .ok (p.albums, p.fetchedAt.map nsOfRfc3339)

/-! ## Completion store (`internal/state`) -/

/-- The completion-state file holds a JSON array of strings; contents are
modelled as the parsed array. -/
abbrev StateFS := FS (List String)

/-- `state.Store`: target path and the key set of the Go
`map[string]struct{}`, as a duplicate-free list (all mutation is
membership-guarded, and the claims below run under the `mu` mutex's
serialization). -/
structure Store where
  path : String
  set : List String
  deriving DecidableEq, Repr

/-- `state.NewStore`: read `path`; a missing file yields the empty set
(other read or parse failures abort construction and are outside this
structural model). -/
def newStore (path : String) (fs : StateFS) : Store :=
  { path := path, set := (fs path).getD [] }

/-- `Store.IsCompleted`. -/
def isCompleted (s : Store) (name : String) : Bool :=
  decide (name ∈ s.set)

/-- `Store.MarkCompleted`: return immediately if already present;
otherwise insert into the in-memory set first, then sort the members
ascending and atomically persist.  `writeOk = false` models a failure of
the persistence steps (mkdir, temp-file create, write, close, rename): the
destination file is left unchanged and an error is returned, but the
in-memory insertion is not rolled back.  Returns (store, fs, error
occurred). -/
def markCompleted (s : Store) (fs : StateFS) (writeOk : Bool)
    (name : String) : Store × StateFS × Bool :=
  if name ∈ s.set then (s, fs, false)
  else
    let s2 : Store := { s with set := name :: s.set }
    if writeOk then
      (s2, FS.update fs s.path (s2.set.insertionSort (· ≤ ·)), false)
    else (s2, fs, true)

/-- Marking a list of names in order, with persistence succeeding each
time. -/
def markAll (s : Store) (fs : StateFS) : List String → Store × StateFS
  | [] => (s, fs)
  | n :: rest =>
      let r := markCompleted s fs true n
      markAll r.1 r.2.1 rest

/-! ## Worker pool (`internal/worker`, `Run`)

An interleaving semantics of one `Run` call under a never-cancelled
context (`ctx.Done()` never ready, `ctx.Err() = nil`): the feeder loop's
send on the unbuffered `jobCh` pairs with a worker goroutine's receive, so
a job moves directly from the pending list into an idle worker's hands;
the error channel is buffered with capacity `len(jobs)`, so sends on it
never block. -/

/-- A pool job together with its fixed outcome (`none` = the job returns
nil). -/
structure PoolJob (E : Type) where
  id : Nat
  outcome : Option E
  deriving DecidableEq, Repr

/-- Go coercion of the worker count: `if workers < 1 { workers = 1 }`. -/
def goWorkers (workers : Int) : Nat :=
  if workers < 1 then 1 else workers.toNat

/-- State of one execution of `worker.Run`: jobs the feeder has not yet
handed over, the slots of the fixed set of worker goroutines (`some j` =
that goroutine is between receiving `j` and finishing it), the jobs whose
execution has finished, and the errors sent on the error channel. -/
structure PoolState (E : Type) where
  queue : List (PoolJob E)
  workers : Multiset (Option (PoolJob E))
  finished : Multiset (PoolJob E)
  collected : Multiset E
  deriving DecidableEq

/-- Initial state: all jobs pending, `goWorkers workers` idle goroutines,
nothing finished, nothing collected. -/
def initPoolState (workers : Int) (jobs : List (PoolJob E)) : PoolState E :=
  { queue := jobs
    workers := Multiset.replicate (goWorkers workers) none
    finished := 0
    collected := 0 }

/-- Interleaving steps of the pool: an idle worker receives the next
pending job, or a running worker finishes its job and sends the job's
error (if any) on the error channel. -/
inductive PoolStep [DecidableEq E] : PoolState E → PoolState E → Prop where
  | assign (s : PoolState E) (j : PoolJob E) (rest : List (PoolJob E)) :
      s.queue = j :: rest → none ∈ s.workers →
      PoolStep s { queue := rest
                   workers := some j ::ₘ s.workers.erase none
                   finished := s.finished
                   collected := s.collected }
  | finish (s : PoolState E) (j : PoolJob E) :
      some j ∈ s.workers →
      PoolStep s { queue := s.queue
                   workers := none ::ₘ s.workers.erase (some j)
                   finished := j ::ₘ s.finished
                   collected := s.collected +
                     (match j.outcome with | some e => {e} | none => 0) }

/-- Executions of the pool are finite interleavings of `PoolStep`s. -/
def PoolReachable [DecidableEq E] (s t : PoolState E) : Prop :=
  Relation.ReflTransGen PoolStep s t

/-- Terminal state: the feeder has sent every job and closed the channel,
and every worker goroutine has drained it and gone idle (`wg.Wait` has
returned). -/
def PoolFinal (s : PoolState E) : Prop :=
  s.queue = [] ∧ s.workers.filterMap id = 0

/-- The jobs currently executing. -/
def PoolState.running (s : PoolState E) : Multiset (PoolJob E) :=
  s.workers.filterMap id

/-- Result computation after `wg.Wait`: drain the error channel; with a
never-cancelled context `ctx.Err()` is nil, so the errors joined by
`errors.Join` are exactly the collected ones (modelled as their multiset),
and the return value is nil iff none were collected. -/
def runResult [DecidableEq E] (s : PoolState E) : Option (Multiset E) :=
  if s.collected = 0 then none else some s.collected

/-! ## Progress-tracked transfer (`internal/download`) -/

/-- End-of-stream marker of one `src.Read` call: `io.EOF` or another read
error. -/
inductive ReadEnd (E : Type) where
  | eofEnd
  | errEnd (e : E)
  deriving DecidableEq, Repr

/-- The source body as a list of `Read` results `(n, err?)`; once the list
is exhausted, further reads return `(0, io.EOF)`. -/
abbrev ReadTrace (E : Type) := List (Nat × Option (ReadEnd E))

/-- The loop of `copyWithProgress`: `clock k` is `time.Now()` at iteration
`k` (in ms); `acc` the bytes written so far; `last` the `lastProgress`
instant (`none` = zero `time.Time`); `hasProgress` whether the callback is
non-nil.  Returns (bytes written, read/write error if any, and the
`(bytesWritten, totalBytes)` arguments of the progress invocations in
order).  Destination writes are modelled as succeeding in full
(`written == n`); a failing or short destination write aborts the copy and
is not exercised by the success-path claims below. -/
def copyLoop (clock : Nat → Int) (hasProgress : Bool) (totalBytes : Int) :
    ReadTrace E → Nat → Option Int → Nat →
      Nat × Option E × List (Int × Int)
  | [], acc, _, _ =>
      (acc, none, if hasProgress then [((acc : Int), totalBytes)] else [])
  | (n, rend) :: rest, acc, last, k =>
      let acc2 := acc + n
      let emit : Bool :=
        hasProgress && decide (0 < n) &&
          (match last with
           | none => true
           | some t => decide (700 ≤ clock k - t))
      let emitted : List (Int × Int) :=
        if emit then [((acc2 : Int), totalBytes)] else []
      let last2 : Option Int := if emit then some (clock k) else last
      match rend with
      | none =>
          let r := copyLoop clock hasProgress totalBytes rest acc2 last2 (k + 1)
          (r.1, r.2.1, emitted ++ r.2.2)
      | some .eofEnd =>
          (acc2, none,
            emitted ++ (if hasProgress then [((acc2 : Int), totalBytes)] else []))
      | some (.errEnd e) => (acc2, some e, emitted)

/-- The HTTP response backing one transfer: status code, Content-Type
header, declared `ContentLength` (Go uses `-1`, and the code treats any
non-positive value alike, for an undeclared length), and the body's read
behavior. -/
structure GoResponse (E : Type) where
  status : Int
  contentType : String
  contentLength : Int
  body : ReadTrace E

/-- `download.FileDownloadResult`; the wall-clock `Duration` field is
outside this model. -/
structure FileDownloadResult where
  contentType : String
  bytesWritten : Int
  deriving DecidableEq, Repr

/-- Failure cases of a transfer within this model. -/
inductive DlErr (E : Type) where
  | badStatus (code : Int)
  | copyErr (e : E)
  deriving DecidableEq, Repr

/-- `Downloader.DownloadToFileWithProgress` from the response onwards:
reject a non-2xx status, compute `totalBytes` from the declared
`ContentLength` (non-positive ⇒ `-1`), and stream via `copyWithProgress`.
Request construction, request transport and file-creation failures are
outside the model.  Returns the result together with the
progress-invocation trace. -/
def downloadToFileWithProgress (resp : GoResponse E) (clock : Nat → Int)
    (hasProgress : Bool) :
    Except (DlErr E) (FileDownloadResult × List (Int × Int)) :=
  if resp.status < 200 ∨ 300 ≤ resp.status then
    .error (.badStatus resp.status)
  else
    match copyLoop clock hasProgress
        (if resp.contentLength ≤ 0 then -1 else resp.contentLength)
        resp.body 0 none 0 with
    | (_, some e, _) => .error (.copyErr e)
    | (b, none, cbs) =>
        .ok ({ contentType := resp.contentType, bytesWritten := (b : Int) },
          cbs)

/-! ## Theorems -/

/-- `withRetry` is `withRetryResult` at `A = Unit`, with a failure-only
operation wrapped into an `Except`-returning one. -/
theorem retryFrom_eq_retryResultFrom (fn : Nat → Option E)
    (cancelledAt : Nat → Bool) (i remaining : Nat) :
    retryFrom fn cancelledAt i remaining =
      retryResultFrom
        (fun j => match fn j with | none => .ok () | some e => .error e)
        cancelledAt i remaining := by
  induction remaining generalizing i with
  | zero => rfl
  | succ m ih =>
    simp only [retryFrom, retryResultFrom]
    cases fn i with
    | none => rfl
    | some e =>
      simp only []
      by_cases hm : m = 0
      · simp [hm]
      · simp only [hm, if_false]
        by_cases hc : cancelledAt i
        · simp [hc]
        · simp [hc, ih]

/-- The coerced attempt count is at least 1. -/
theorem goAttempts_pos (attempts : Int) : 1 ≤ goAttempts attempts := by
  unfold goAttempts
  split <;> omega

/-- Splitting off the first backoff wait of an attempt-indexed wait list. -/
theorem waits_range_succ (i m : Nat) :
    (List.range (m + 1)).map (fun t => (i + t) * 400) =
      i * 400 :: (List.range m).map (fun t => (i + 1 + t) * 400) := by
  rw [List.range_succ_eq_map, List.map_cons, List.map_map]
  refine congrArg₂ _ (by omega) ?_
  refine List.map_congr_left fun t _ => ?_
  simp only [Function.comp]
  omega

/-- If the operation fails on attempts `i .. i+m-1`, succeeds on attempt
`i+m`, and cancellation is never observed, the loop returns the success
value after `m + 1` invocations, having completed waits
`i*400, .., (i+m-1)*400` ms. -/
theorem retryResultFrom_succeeds (fn : Nat → Except E A) (cAt : Nat → Bool)
    (a : A) (m : Nat) :
    ∀ i remaining, m < remaining →
      (∀ j, i ≤ j → j < i + m → ∃ e, fn j = .error e) →
      fn (i + m) = .ok a →
      (∀ j, i ≤ j → j < i + m → cAt j = false) →
      retryResultFrom fn cAt i remaining =
        (.success a, m + 1, (List.range m).map (fun t => (i + t) * 400)) := by
  induction m with
  | zero =>
    intro i remaining hrem _ hok _
    obtain ⟨r, rfl⟩ : ∃ r, remaining = r + 1 := ⟨remaining - 1, by omega⟩
    simp only [Nat.add_zero] at hok
    simp [retryResultFrom, hok]
  | succ m ih =>
    intro i remaining hrem hfail hok hcan
    obtain ⟨r, rfl⟩ : ∃ r, remaining = r + 1 := ⟨remaining - 1, by omega⟩
    obtain ⟨e, he⟩ := hfail i (Nat.le_refl i) (by omega)
    have hr : r ≠ 0 := by omega
    have hci : cAt i = false := hcan i (Nat.le_refl i) (by omega)
    have hrec := ih (i + 1) r (by omega)
      (fun j h1 h2 => hfail j (by omega) (by omega))
      (by have : i + 1 + m = i + (m + 1) := by omega
          rw [this]; exact hok)
      (fun j h1 h2 => hcan j (by omega) (by omega))
    simp only [retryResultFrom, he, hr, if_false, hci, Bool.false_eq_true,
      hrec, waits_range_succ]

/-- If the operation fails on every invocation and cancellation is never
observed, the loop performs all `remaining` invocations and returns the
last failure. -/
theorem retryResultFrom_allFail (fn : Nat → Except E A) (cAt : Nat → Bool)
    (errs : Nat → E) (hf : ∀ j, fn j = .error (errs j))
    (hc : ∀ j, cAt j = false) :
    ∀ remaining i, 1 ≤ remaining →
      retryResultFrom fn cAt i remaining =
        (.failure (errs (i + remaining - 1)), remaining,
          (List.range (remaining - 1)).map (fun t => (i + t) * 400)) := by
  intro remaining
  induction remaining with
  | zero => omega
  | succ r ih =>
    intro i _
    by_cases hr : r = 0
    · subst hr
      simp [retryResultFrom, hf i]
    · have hrec := ih (i + 1) (by omega)
      have : i + 1 + r - 1 = i + (r + 1) - 1 := by omega
      rw [this] at hrec
      simp only [retryResultFrom, hf i, hr, if_false, hc i,
        Bool.false_eq_true, hrec]
      refine congrArg _ (congrArg _ ?_)
      have hrr : r + 1 - 1 = (r - 1) + 1 := by omega
      rw [hrr, waits_range_succ]

/-- If the operation fails on attempts `i .. i+m` and cancellation is first
observed in the select after attempt `i+m` (with at least one further
attempt remaining), the loop aborts with the cancellation result after
`m + 1` invocations, having completed only the waits before attempt `i+m`. -/
theorem retryResultFrom_cancelled (fn : Nat → Except E A) (cAt : Nat → Bool)
    (m : Nat) :
    ∀ i remaining, m + 2 ≤ remaining →
      (∀ j, i ≤ j → j ≤ i + m → ∃ e, fn j = .error e) →
      (∀ j, i ≤ j → j < i + m → cAt j = false) →
      cAt (i + m) = true →
      retryResultFrom fn cAt i remaining =
        (.cancelled, m + 1, (List.range m).map (fun t => (i + t) * 400)) := by
  induction m with
  | zero =>
    intro i remaining hrem hfail _ hcan
    obtain ⟨r, rfl⟩ : ∃ r, remaining = r + 1 := ⟨remaining - 1, by omega⟩
    obtain ⟨e, he⟩ := hfail i (Nat.le_refl i) (Nat.le_refl i)
    have hr : r ≠ 0 := by omega
    simp only [Nat.add_zero] at hcan
    simp [retryResultFrom, he, hr, hcan]
  | succ m ih =>
    intro i remaining hrem hfail hcan hcm
    obtain ⟨r, rfl⟩ : ∃ r, remaining = r + 1 := ⟨remaining - 1, by omega⟩
    obtain ⟨e, he⟩ := hfail i (Nat.le_refl i) (by omega)
    have hr : r ≠ 0 := by omega
    have hci : cAt i = false := hcan i (Nat.le_refl i) (by omega)
    have hrec := ih (i + 1) r (by omega)
      (fun j h1 h2 => hfail j (by omega) (by omega))
      (fun j h1 h2 => hcan j (by omega) (by omega))
      (by have : i + 1 + m = i + (m + 1) := by omega
          rw [this]; exact hcm)
    simp only [retryResultFrom, he, hr, if_false, hci, Bool.false_eq_true,
      hrec, waits_range_succ]

/-- C1: for every maximum attempt count (with a value below 1 coerced to
1) and every operation, with cancellation never signaled: an operation
that fails on its first `k < N` invocations and then succeeds makes
`withRetry`/`withRetryResult` return the success value after exactly
`k + 1` invocations; an always-failing operation is invoked exactly `N`
times and its final failure is returned. -/
theorem c1_retry_invocation_counts {E A : Type} (attempts : Int) :
    (∀ (fn : Nat → Except E A) (k : Nat) (a : A),
      k < goAttempts attempts →
      (∀ j, 1 ≤ j → j ≤ k → ∃ e, fn j = .error e) →
      fn (k + 1) = .ok a →
      (withRetryResult fn (fun _ => false) attempts).1 = .success a ∧
        (withRetryResult fn (fun _ => false) attempts).2.1 = k + 1) ∧
    (∀ (fn : Nat → Except E A) (errs : Nat → E),
      (∀ j, fn j = .error (errs j)) →
      (withRetryResult fn (fun _ => false) attempts).1 =
          .failure (errs (goAttempts attempts)) ∧
        (withRetryResult fn (fun _ => false) attempts).2.1 =
          goAttempts attempts) ∧
    (∀ (fn : Nat → Option E) (k : Nat),
      k < goAttempts attempts →
      (∀ j, 1 ≤ j → j ≤ k → ∃ e, fn j = some e) →
      fn (k + 1) = none →
      (withRetry fn (fun _ => false) attempts).1 = .success () ∧
        (withRetry fn (fun _ => false) attempts).2.1 = k + 1) ∧
    (∀ (fn : Nat → Option E) (errs : Nat → E),
      (∀ j, fn j = some (errs j)) →
      (withRetry fn (fun _ => false) attempts).1 =
          .failure (errs (goAttempts attempts)) ∧
        (withRetry fn (fun _ => false) attempts).2.1 =
          goAttempts attempts) := by
  have hN := goAttempts_pos attempts
  refine ⟨?_, ?_, ?_, ?_⟩
  · intro fn k a hk hfail hok
    have h := retryResultFrom_succeeds fn (fun _ => false) a k
      1 (goAttempts attempts) hk
      (fun j h1 h2 => hfail j h1 (by omega))
      (by rw [Nat.add_comm 1 k]; exact hok)
      (fun _ _ _ => rfl)
    constructor <;> simp only [withRetryResult, h]
  · intro fn errs hf
    have h := retryResultFrom_allFail fn (fun _ => false) errs hf
      (fun _ => rfl) (goAttempts attempts) 1 hN
    have h1 : 1 + goAttempts attempts - 1 = goAttempts attempts := by omega
    rw [h1] at h
    constructor <;> simp only [withRetryResult, h]
  · intro fn k hk hfail hok
    have h := retryResultFrom_succeeds
      (fun j => match fn j with | none => Except.ok () | some e => Except.error e)
      (fun _ => false) () k 1 (goAttempts attempts) hk
      (fun j h1 h2 => by
        obtain ⟨e, he⟩ := hfail j h1 (by omega)
        exact ⟨e, by simp only [he]⟩)
      (by simp only [Nat.add_comm 1 k, hok])
      (fun _ _ _ => rfl)
    constructor <;> simp only [withRetry, retryFrom_eq_retryResultFrom, h]
  · intro fn errs hf
    have h := retryResultFrom_allFail
      (fun j => match fn j with | none => Except.ok () | some e => Except.error e)
      (fun _ => false) errs (fun j => by simp only [hf j])
      (fun _ => rfl) (goAttempts attempts) 1 hN
    have h1 : 1 + goAttempts attempts - 1 = goAttempts attempts := by omega
    rw [h1] at h
    constructor <;> simp only [withRetry, retryFrom_eq_retryResultFrom, h]

/-- Witness for C1: 3 attempts with an operation failing twice then
returning 7, and 2 attempts with an always-failing operation. -/
theorem c1_retry_invocation_counts_witness :
    ((withRetryResult
        (fun j => if j ≤ 2 then Except.error "boom" else Except.ok (7 : Nat))
        (fun _ => false) 3).1 = .success 7 ∧
      (withRetryResult
        (fun j => if j ≤ 2 then Except.error "boom" else Except.ok (7 : Nat))
        (fun _ => false) 3).2.1 = 3) ∧
    ((withRetry (fun _ => some "down") (fun _ => false) 2).1 =
        .failure "down" ∧
      (withRetry (fun _ => some "down") (fun _ => false) 2).2.1 = 2) := by
  constructor
  · have h := (c1_retry_invocation_counts (E := String) (A := Nat) 3).1
      (fun j => if j ≤ 2 then Except.error "boom" else Except.ok (7 : Nat))
      2 7 (by decide)
      (fun j h1 h2 => ⟨"boom", by simp [h2]⟩)
      (by norm_num)
    exact h
  · have h := (c1_retry_invocation_counts (E := String) (A := Nat) 2).2.2.2
      (fun _ => some "down") (fun _ => "down") (fun _ => rfl)
    exact h

/-- C2: after a failure on attempt `i < N` the executor waits `i × 400` ms
before the next attempt (a run failing `k` times before succeeding
completes exactly the waits `1*400, …, k*400` in order); if cancellation
is signaled during the wait after attempt `c`, the executor aborts after
exactly `c` invocations and returns the cancellation as the failure,
discarding the operation's own error, with only the earlier waits
completed. -/
theorem c2_retry_backoff_and_cancellation {E A : Type} (attempts : Int) :
    (∀ (fn : Nat → Except E A) (k : Nat) (a : A),
      k < goAttempts attempts →
      (∀ j, 1 ≤ j → j ≤ k → ∃ e, fn j = .error e) →
      fn (k + 1) = .ok a →
      (withRetryResult fn (fun _ => false) attempts).2.2 =
        (List.range k).map (fun t => (1 + t) * 400)) ∧
    (∀ (fn : Nat → Except E A) (cAt : Nat → Bool) (c : Nat),
      1 ≤ c → c < goAttempts attempts →
      (∀ j, 1 ≤ j → j ≤ c → ∃ e, fn j = .error e) →
      (∀ j, 1 ≤ j → j < c → cAt j = false) →
      cAt c = true →
      withRetryResult fn cAt attempts =
        (.cancelled, c, (List.range (c - 1)).map (fun t => (1 + t) * 400))) := by
  constructor
  · intro fn k a hk hfail hok
    have h := retryResultFrom_succeeds fn (fun _ => false) a k
      1 (goAttempts attempts) hk
      (fun j h1 h2 => hfail j h1 (by omega))
      (by rw [Nat.add_comm 1 k]; exact hok)
      (fun _ _ _ => rfl)
    simp only [withRetryResult, h]
  · intro fn cAt c hc1 hcN hfail hfree hcan
    have hm : 1 + (c - 1) = c := by omega
    have h := retryResultFrom_cancelled fn cAt (c - 1)
      1 (goAttempts attempts) (by omega)
      (fun j h1 h2 => hfail j h1 (by omega))
      (fun j h1 h2 => hfree j h1 (by omega))
      (by rw [hm]; exact hcan)
    rw [withRetryResult, h]
    refine congrArg _ (congrArg₂ _ ?_ rfl)
    omega

/-- Witness for C2: 3 attempts; a run failing twice then succeeding
completes waits `[400, 800]`; a run cancelled during the wait after
attempt 2 stops at 2 invocations with only `[400]` completed. -/
theorem c2_retry_backoff_and_cancellation_witness :
    (withRetryResult
        (fun j => if j ≤ 2 then Except.error "boom" else Except.ok (7 : Nat))
        (fun _ => false) 3).2.2 = [400, 800] ∧
    withRetryResult (fun _ => Except.error "boom") (fun j => decide (j = 2))
        (3 : Int) =
      ((.cancelled : RetryRes String Nat), 2, [400]) := by
  constructor
  · have h := (c2_retry_backoff_and_cancellation (E := String) (A := Nat) 3).1
      (fun j => if j ≤ 2 then Except.error "boom" else Except.ok (7 : Nat))
      2 7 (by decide)
      (fun j h1 h2 => ⟨"boom", by simp [h2]⟩)
      (by norm_num)
    rw [h]
    rfl
  · have h := (c2_retry_backoff_and_cancellation (E := String) (A := Nat) 3).2
      (fun _ => Except.error "boom") (fun j => decide (j = 2)) 2
      (by norm_num) (by decide)
      (fun j h1 h2 => ⟨"boom", rfl⟩)
      (fun j h1 h2 => by
        have : j = 1 := by omega
        subst this
        rfl)
      (by decide)
    rw [h]
    rfl

/-- C3 as stated is refuted: with the cancellation signal set before any
attempt (`cancelledAt` identically true, as a pre-cancelled context's
`Done` channel is the only ready select case), an operation that succeeds
on its first invocation still gets its success returned — the executor
does not return the cancellation failure for it. -/
theorem c3_counterexample :
    withRetry (fun _ => (none : Option Unit)) (fun _ => true) 3 =
      (RetryRes.success (), 1, ([] : List Nat)) ∧
    (RetryRes.success () : RetryRes Unit Unit) ≠ RetryRes.cancelled := by
  exact ⟨by decide, by decide⟩

/-- C3 amended: with the cancellation signal set before any attempt the
executor still invokes the operation exactly once (never zero times) and
completes no wait; if that first invocation succeeds, its success — not
the cancellation failure — is returned; if it fails, the cancellation
failure is returned when at least two attempts were allowed, while with a
single (coerced) attempt the operation's own failure is returned. -/
theorem c3_precancelled_policy {E : Type} (fn : Nat → Option E)
    (attempts : Int) :
    (withRetry fn (fun _ => true) attempts).2.1 = 1 ∧
    (withRetry fn (fun _ => true) attempts).2.2 = [] ∧
    (fn 1 = none →
      (withRetry fn (fun _ => true) attempts).1 = .success ()) ∧
    (∀ e, fn 1 = some e →
      (2 ≤ goAttempts attempts →
        (withRetry fn (fun _ => true) attempts).1 = .cancelled) ∧
      (goAttempts attempts = 1 →
        (withRetry fn (fun _ => true) attempts).1 = .failure e)) := by
  obtain ⟨r, hr⟩ : ∃ r, goAttempts attempts = r + 1 :=
    ⟨goAttempts attempts - 1, by have := goAttempts_pos attempts; omega⟩
  have hv : ∃ x : RetryRes E Unit,
      withRetry fn (fun _ => true) attempts = (x, 1, []) ∧
      (fn 1 = none → x = .success ()) ∧
      (∀ e, fn 1 = some e →
        (2 ≤ goAttempts attempts → x = .cancelled) ∧
        (goAttempts attempts = 1 → x = .failure e)) := by
    cases hfn : fn 1 with
    | none =>
      refine ⟨.success (), ?_, fun _ => rfl, fun e he => Option.noConfusion he⟩
      simp [withRetry, hr, retryFrom, hfn]
    | some e =>
      by_cases h0 : r = 0
      · subst h0
        refine ⟨.failure e, ?_, ?_, ?_⟩
        · simp [withRetry, hr, retryFrom, hfn]
        · intro h; exact Option.noConfusion h
        · intro e2 he2
          injection he2 with he3
          subst he3
          exact ⟨fun h2 => by rw [hr] at h2; omega, fun _ => rfl⟩
      · refine ⟨.cancelled, ?_, ?_, ?_⟩
        · simp [withRetry, hr, retryFrom, hfn, h0]
        · intro h; exact Option.noConfusion h
        · intro e2 he2
          exact ⟨fun _ => rfl, fun h1 => by rw [hr] at h1; omega⟩
  obtain ⟨x, hx, h1, h2⟩ := hv
  rw [hx]
  refine ⟨rfl, rfl, fun h => by rw [h1 h], fun e he => ?_⟩
  obtain ⟨ha, hb⟩ := h2 e he
  exact ⟨fun h => by rw [ha h], fun h => by rw [hb h]⟩

/-- Witness for the amended C3: a pre-cancelled run of a failing operation
with 3 attempts makes exactly one invocation and returns the cancellation
failure. -/
theorem c3_precancelled_policy_witness :
    (withRetry (fun _ => some "e") (fun _ => true) 3).2.1 = 1 ∧
    (withRetry (fun _ => some "e") (fun _ => true) 3).1 =
      RetryRes.cancelled := by
  have h := c3_precancelled_policy (fun _ => some "e") 3
  exact ⟨h.1, (h.2.2.2 "e" rfl).1 (by decide)⟩

/-- C4: `shouldUseCachedAlbums` returns true whenever `ttl ≤ 0`; otherwise
false for the zero/unset timestamp; otherwise true iff the elapsed time
`now − fetchedAt` is at most `ttl`, a negative elapsed time (fetch instant
in `now`'s future) also yielding true. -/
theorem c4_shouldUseCachedAlbums_spec (cachedAt : Option Int)
    (ttl now : Int) :
    (ttl ≤ 0 → shouldUseCachedAlbums cachedAt ttl now = true) ∧
    (0 < ttl → cachedAt = none →
      shouldUseCachedAlbums cachedAt ttl now = false) ∧
    (∀ t, 0 < ttl → cachedAt = some t →
      (shouldUseCachedAlbums cachedAt ttl now = true ↔ now - t ≤ ttl)) ∧
    (∀ t, 0 < ttl → cachedAt = some t → now - t < 0 →
      shouldUseCachedAlbums cachedAt ttl now = true) := by
  refine ⟨?_, ?_, ?_, ?_⟩
  · intro h
    unfold shouldUseCachedAlbums
    rw [if_pos h]
  · intro h hn
    subst hn
    unfold shouldUseCachedAlbums
    rw [if_neg (by omega)]
  · intro t h hc
    subst hc
    unfold shouldUseCachedAlbums
    rw [if_neg (by omega)]
    simp only []
    by_cases hage : now - t < 0
    · rw [if_pos hage]
      exact ⟨fun _ => by omega, fun _ => rfl⟩
    · rw [if_neg hage]
      simp [decide_eq_true_iff]
  · intro t h hc hneg
    subst hc
    unfold shouldUseCachedAlbums
    rw [if_neg (by omega)]
    simp only []
    rw [if_pos hneg]

/-- Witness for C4 at concrete instants: disabled TTL, unset timestamp,
boundary elapsed time, and clock skew into the future. -/
theorem c4_shouldUseCachedAlbums_spec_witness :
    shouldUseCachedAlbums none 0 5 = true ∧
    shouldUseCachedAlbums none 10 5 = false ∧
    (shouldUseCachedAlbums (some 2) 10 5 = true ↔ (5 : Int) - 2 ≤ 10) ∧
    shouldUseCachedAlbums (some 9) 10 5 = true := by
  have h0 := (c4_shouldUseCachedAlbums_spec none 0 5).1 (by norm_num)
  have h1 := (c4_shouldUseCachedAlbums_spec none 10 5).2.1 (by norm_num) rfl
  have h2 := (c4_shouldUseCachedAlbums_spec (some 2) 10 5).2.2.1 2
    (by norm_num) rfl
  have h3 := (c4_shouldUseCachedAlbums_spec (some 9) 10 5).2.2.2 9
    (by norm_num) rfl (by norm_num)
  exact ⟨h0, h1, h2, h3⟩

/-- C5: `Cache.Save(items)` followed by `Cache.Load()` on the same path
returns the same album list and a non-zero fetch timestamp within one
second (and so within a few seconds) of the wall clock at which Save ran;
the hypothesis says only that Save runs at least one second past the
epoch, which every real `time.Now()` satisfies. -/
theorem c5_cache_roundtrip (path : String) (nowNs : Int)
    (albums : List Album) (fs : FS CachePayload)
    (hnow : 1000000000 ≤ nowNs) :
    ∃ t : Int,
      cacheLoad path (cacheSave path nowNs albums fs) =
        .ok (albums, some t) ∧
      t ≠ 0 ∧ 0 ≤ nowNs - t ∧ nowNs - t < 1000000000 := by
  refine ⟨nsOfRfc3339 (rfc3339OfNs nowNs), ?_, ?_, ?_, ?_⟩
  · simp [cacheLoad, cacheSave, FS.update]
  · unfold nsOfRfc3339 rfc3339OfNs
    omega
  · unfold nsOfRfc3339 rfc3339OfNs
    omega
  · unfold nsOfRfc3339 rfc3339OfNs
    omega

/-- Witness for C5 at a concrete path, instant and album list. -/
theorem c5_cache_roundtrip_witness :
    ∃ t : Int,
      cacheLoad "albums_cache.json"
          (cacheSave "albums_cache.json" 1700000000123456789
            [⟨"a1", "Alpha", "https://cover/1", ["Artist 1"]⟩]
            (fun _ => none)) =
        .ok ([⟨"a1", "Alpha", "https://cover/1", ["Artist 1"]⟩], some t) ∧
      t ≠ 0 ∧ 0 ≤ 1700000000123456789 - t ∧
      1700000000123456789 - t < 1000000000 :=
  c5_cache_roundtrip "albums_cache.json" 1700000000123456789
    [⟨"a1", "Alpha", "https://cover/1", ["Artist 1"]⟩]
    (fun _ => none) (by norm_num)

/-- Invariant of a run of successful `MarkCompleted` calls: if the
in-memory set is duplicate-free and the file holds exactly the sorted set,
then after marking any list of names the path is unchanged, the set stays
duplicate-free, membership grows by exactly the marked names, and the file
again holds exactly the sorted set. -/
theorem markAll_invariant (ns : List String) :
    ∀ (s : Store) (fs : StateFS),
      s.set.Nodup →
      fs s.path = some (s.set.insertionSort (· ≤ ·)) →
      (markAll s fs ns).1.path = s.path ∧
      (markAll s fs ns).1.set.Nodup ∧
      (∀ x, x ∈ (markAll s fs ns).1.set ↔ x ∈ s.set ∨ x ∈ ns) ∧
      (markAll s fs ns).2 s.path =
        some ((markAll s fs ns).1.set.insertionSort (· ≤ ·)) := by
  induction ns with
  | nil =>
    intro s fs hnd hfs
    exact ⟨rfl, hnd, by simp [markAll], by simpa [markAll] using hfs⟩
  | cons n rest ih =>
    intro s fs hnd hfs
    by_cases hmem : n ∈ s.set
    · have hstep : markAll s fs (n :: rest) = markAll s fs rest := by
        simp [markAll, markCompleted, hmem]
      rw [hstep]
      obtain ⟨h1, h2, h3, h4⟩ := ih s fs hnd hfs
      refine ⟨h1, h2, fun x => ?_, h4⟩
      rw [h3 x]
      constructor
      · rintro (hx | hx)
        · exact Or.inl hx
        · exact Or.inr (List.mem_cons_of_mem n hx)
      · rintro (hx | hx)
        · exact Or.inl hx
        · rcases List.mem_cons.mp hx with rfl | hx
          · exact Or.inl hmem
          · exact Or.inr hx
    · have hstep : markAll s fs (n :: rest) =
          markAll ⟨s.path, n :: s.set⟩
            (FS.update fs s.path ((n :: s.set).insertionSort (· ≤ ·)))
            rest := by
        simp [markAll, markCompleted, hmem]
      rw [hstep]
      obtain ⟨h1, h2, h3, h4⟩ := ih ⟨s.path, n :: s.set⟩
        (FS.update fs s.path ((n :: s.set).insertionSort (· ≤ ·)))
        (List.nodup_cons.mpr ⟨hmem, hnd⟩)
        (by simp [FS.update])
      refine ⟨h1, h2, fun x => ?_, h4⟩
      rw [h3 x]
      constructor
      · rintro (hx | hx)
        · rcases List.mem_cons.mp hx with rfl | hx
          · exact Or.inr (List.mem_cons_self x rest)
          · exact Or.inl hx
        · exact Or.inr (List.mem_cons_of_mem n hx)
      · rintro (hx | hx)
        · exact Or.inl (List.mem_cons_of_mem n hx)
        · rcases List.mem_cons.mp hx with rfl | hx
          · exact Or.inl (List.mem_cons_self x s.set)
          · exact Or.inr hx

/-- C6: marking the same name twice records it once — the second call
returns immediately without touching the store or the filesystem; after
any non-empty sequence of successful marks from a fresh store on an
absent file, the persisted file is exactly the distinct marked names
sorted ascending; and a freshly constructed store on the same path
afterwards reports every marked name completed. -/
theorem c6_completion_store (p : String) (fs0 : StateFS)
    (ns : List String) (hfs0 : fs0 p = none) (hne : ns ≠ []) :
    (∀ (s : Store) (fs : StateFS) (w : Bool) (name : String),
      markCompleted (markCompleted s fs true name).1
          (markCompleted s fs true name).2.1 w name =
        ((markCompleted s fs true name).1,
          (markCompleted s fs true name).2.1, false)) ∧
    (∃ l : List String,
      (markAll (newStore p fs0) fs0 ns).2 p = some l ∧
      l.Sorted (· ≤ ·) ∧ l.Nodup ∧ (∀ x, x ∈ l ↔ x ∈ ns) ∧
      (∀ x ∈ ns,
        isCompleted (newStore p ((markAll (newStore p fs0) fs0 ns).2)) x =
          true)) := by
  constructor
  · intro s fs w name
    by_cases h : name ∈ s.set
    · simp [markCompleted, h]
    · simp [markCompleted, h]
  · obtain ⟨n, rest, rfl⟩ : ∃ n rest, ns = n :: rest := by
      cases ns with
      | nil => exact absurd rfl hne
      | cons n rest => exact ⟨n, rest, rfl⟩
    have hinit : newStore p fs0 = ⟨p, []⟩ := by
      simp [newStore, hfs0]
    have hstep : markAll (newStore p fs0) fs0 (n :: rest) =
        markAll ⟨p, [n]⟩ (FS.update fs0 p ([n].insertionSort (· ≤ ·)))
          rest := by
      rw [hinit]
      simp [markAll, markCompleted]
    obtain ⟨h1, h2, h3, h4⟩ := markAll_invariant rest ⟨p, [n]⟩
      (FS.update fs0 p ([n].insertionSort (· ≤ ·)))
      (by simp) (by simp [FS.update])
    rw [hstep]
    refine ⟨(markAll ⟨p, [n]⟩
        (FS.update fs0 p ([n].insertionSort (· ≤ ·))) rest).1.set.insertionSort
          (· ≤ ·),
      h4, List.sorted_insertionSort _ _,
      ((List.perm_insertionSort _ _).nodup_iff).mpr h2, fun x => ?_, ?_⟩
    · rw [(List.perm_insertionSort _ _).mem_iff, h3 x]
      simp [List.mem_cons]
    · intro x hx
      have hxset : x ∈ (markAll ⟨p, [n]⟩
          (FS.update fs0 p ([n].insertionSort (· ≤ ·))) rest).1.set := by
        rw [h3 x]
        rcases List.mem_cons.mp hx with rfl | hx
        · exact Or.inl (List.mem_cons_self x [])
        · exact Or.inr hx
      have hfile := h4
      rw [isCompleted, newStore]
      simp only [hfile, Option.getD_some]
      exact decide_eq_true ((List.perm_insertionSort _ _).mem_iff.mpr hxset)

/-- Witness for C6: marking `beta`, `alpha`, `beta` on a fresh store over
an absent file. -/
theorem c6_completion_store_witness :
    (∀ (s : Store) (fs : StateFS) (w : Bool) (name : String),
      markCompleted (markCompleted s fs true name).1
          (markCompleted s fs true name).2.1 w name =
        ((markCompleted s fs true name).1,
          (markCompleted s fs true name).2.1, false)) ∧
    (∃ l : List String,
      (markAll (newStore "state.json" (fun _ => none)) (fun _ => none)
          ["beta", "alpha", "beta"]).2 "state.json" = some l ∧
      l.Sorted (· ≤ ·) ∧ l.Nodup ∧
      (∀ x, x ∈ l ↔ x ∈ ["beta", "alpha", "beta"]) ∧
      (∀ x ∈ ["beta", "alpha", "beta"],
        isCompleted (newStore "state.json"
          ((markAll (newStore "state.json" (fun _ => none)) (fun _ => none)
            ["beta", "alpha", "beta"]).2)) x = true)) :=
  c6_completion_store "state.json" (fun _ => none)
    ["beta", "alpha", "beta"] rfl (by simp)

/-- C10: when the persistence step of `MarkCompleted` fails, the call
reports the error but the name stays in the in-memory set: `IsCompleted`
then reports true, a repeated `MarkCompleted` returns nil immediately
without attempting persistence again (whether or not persistence would now
succeed), and the file is unchanged — so the on-disk state can permanently
lack a name the running process considers completed. -/
theorem c10_markCompleted_failed_persist (s : Store) (fs : StateFS)
    (name : String) (hmem : name ∉ s.set) :
    (markCompleted s fs false name).2.2 = true ∧
    (markCompleted s fs false name).1.set = name :: s.set ∧
    (markCompleted s fs false name).2.1 = fs ∧
    isCompleted (markCompleted s fs false name).1 name = true ∧
    (∀ w, markCompleted (markCompleted s fs false name).1 fs w name =
      ((markCompleted s fs false name).1, fs, false)) := by
  refine ⟨?_, ?_, ?_, ?_, ?_⟩
  · simp [markCompleted, hmem]
  · simp [markCompleted, hmem]
  · simp [markCompleted, hmem]
  · simp [markCompleted, isCompleted, hmem]
  · intro w
    simp [markCompleted, hmem]

/-- Witness for C10: a failing persist of `alpha` on an empty store. -/
theorem c10_markCompleted_failed_persist_witness :
    (markCompleted ⟨"p", []⟩ (fun _ => none) false "alpha").2.2 = true ∧
    (markCompleted ⟨"p", []⟩ (fun _ => none) false "alpha").1.set =
      ["alpha"] ∧
    (markCompleted ⟨"p", []⟩ (fun _ => none) false "alpha").2.1 =
      (fun _ => none) ∧
    isCompleted (markCompleted ⟨"p", []⟩ (fun _ => none) false "alpha").1
      "alpha" = true ∧
    (∀ w, markCompleted
        (markCompleted ⟨"p", []⟩ (fun _ => none) false "alpha").1
        (fun _ => none) w "alpha" =
      ((markCompleted ⟨"p", []⟩ (fun _ => none) false "alpha").1,
        (fun _ => none), false)) :=
  c10_markCompleted_failed_persist ⟨"p", []⟩ (fun _ => none) "alpha"
    (by simp)

/-- A bank of idle workers runs nothing. -/
theorem filterMap_id_replicate_none {α : Type} (W : Nat) :
    (Multiset.replicate W (none : Option α)).filterMap id = 0 := by
  induction W with
  | zero => rfl
  | succ n ih =>
    rw [Multiset.replicate_succ, Multiset.filterMap_cons_none _ _ rfl, ih]

/-- `filterMap` never enlarges a multiset. -/
theorem card_filterMap_le_card {α β : Type} (f : α → Option β)
    (s : Multiset α) : (s.filterMap f).card ≤ s.card := by
  induction s using Multiset.induction_on with
  | empty => simp
  | cons a s ih =>
    cases hfa : f a with
    | none =>
      rw [Multiset.filterMap_cons_none _ _ hfa, Multiset.card_cons]
      omega
    | some b =>
      rw [Multiset.filterMap_cons_some _ _ _ hfa, Multiset.card_cons,
        Multiset.card_cons]
      omega

/-- Erasing one idle slot does not change the running jobs. -/
theorem running_erase_none {α : Type} [DecidableEq α]
    (w : Multiset (Option α)) (h : none ∈ w) :
    (w.erase none).filterMap id = w.filterMap id := by
  conv_rhs => rw [← Multiset.cons_erase h]
  rw [Multiset.filterMap_cons_none _ _ rfl]

/-- Invariant of the pool semantics: the worker bank keeps its size, every
job is in exactly one of pending / running / finished, and the error
channel holds exactly the failures of the finished jobs. -/
def PoolInv [DecidableEq E] (jobs : List (PoolJob E)) (W : Nat)
    (s : PoolState E) : Prop :=
  Multiset.card s.workers = W ∧
  (↑s.queue + s.running + s.finished = (↑jobs : Multiset (PoolJob E))) ∧
  s.collected = s.finished.filterMap (fun j => j.outcome)

/-- The initial state satisfies the invariant. -/
theorem poolInv_init [DecidableEq E] (workers : Int)
    (jobs : List (PoolJob E)) :
    PoolInv jobs (goWorkers workers) (initPoolState workers jobs) := by
  refine ⟨by simp [initPoolState], ?_, by simp [initPoolState]⟩
  simp [initPoolState, PoolState.running, filterMap_id_replicate_none]

/-- Every pool step preserves the invariant. -/
theorem poolStep_inv [DecidableEq E] {jobs : List (PoolJob E)} {W : Nat}
    {s t : PoolState E} (hst : PoolStep s t) (hinv : PoolInv jobs W s) :
    PoolInv jobs W t := by
  obtain ⟨hcard, hsum, hcol⟩ := hinv
  cases hst with
  | assign j rest hq hnone =>
    have hpos : 0 < Multiset.card s.workers :=
      Multiset.card_pos.mpr (fun h => by rw [h] at hnone; cases hnone)
    refine ⟨?_, ?_, hcol⟩
    · rw [Multiset.card_cons, Multiset.card_erase_of_mem hnone]
      simp only [Nat.pred_eq_sub_one]
      omega
    · show ↑rest + ((some j ::ₘ s.workers.erase none).filterMap id) +
        s.finished = (↑jobs : Multiset (PoolJob E))
      rw [@Multiset.filterMap_cons_some (Option (PoolJob E)) (PoolJob E) id
        (some j) (s.workers.erase none) j rfl, running_erase_none _ hnone]
      simp only [PoolState.running] at hsum
      rw [hq] at hsum
      rw [← hsum, ← Multiset.cons_coe]
      simp only [← Multiset.singleton_add]
      abel
  | finish j hmem =>
    refine ⟨?_, ?_, ?_⟩
    · rw [Multiset.card_cons, Multiset.card_erase_of_mem hmem]
      have hpos : 0 < Multiset.card s.workers :=
        Multiset.card_pos.mpr (fun h => by rw [h] at hmem; cases hmem)
      simp only [Nat.pred_eq_sub_one]
      omega
    · show ↑s.queue + ((none ::ₘ s.workers.erase (some j)).filterMap id) +
        (j ::ₘ s.finished) = (↑jobs : Multiset (PoolJob E))
      rw [Multiset.filterMap_cons_none _ _ rfl]
      have hrun : s.workers.filterMap id =
          j ::ₘ (s.workers.erase (some j)).filterMap id := by
        conv_lhs => rw [← Multiset.cons_erase hmem]
        rw [@Multiset.filterMap_cons_some (Option (PoolJob E)) (PoolJob E) id
          (some j) (s.workers.erase (some j)) j rfl]
      simp only [PoolState.running] at hsum
      rw [hrun] at hsum
      rw [← hsum]
      simp only [← Multiset.singleton_add]
      abel
    · show s.collected + _ = (j ::ₘ s.finished).filterMap (fun j => j.outcome)
      cases hout : j.outcome with
      | none =>
        rw [Multiset.filterMap_cons_none _ _ hout, ← hcol]
        simp
      | some e =>
        rw [@Multiset.filterMap_cons_some (PoolJob E) E (fun j => j.outcome) j
          s.finished e hout, ← hcol]
        show s.collected + {e} = e ::ₘ s.collected
        rw [add_comm, Multiset.singleton_add]

/-- The invariant holds in every reachable state. -/
theorem poolInv_reachable [DecidableEq E] (workers : Int)
    (jobs : List (PoolJob E)) (s : PoolState E)
    (hreach : PoolReachable (initPoolState workers jobs) s) :
    PoolInv jobs (goWorkers workers) s := by
  induction hreach with
  | refl => exact poolInv_init workers jobs
  | tail h1 h2 ih => exact poolStep_inv h2 ih

/-- C7: with a never-cancelled signal, every terminated execution of
`worker.Run` has executed every job exactly once; an empty job list is
terminal immediately, with a nil result and nothing run; the worker count
is coerced to at least 1; and the result is nil iff no job failed,
otherwise the join of exactly the individual job failures (no
short-circuiting). -/
theorem c7_worker_run_collects_all {E : Type} [DecidableEq E]
    (workers : Int) (jobs : List (PoolJob E)) (s : PoolState E)
    (hreach : PoolReachable (initPoolState workers jobs) s)
    (hfin : PoolFinal s) :
    s.finished = (↑jobs : Multiset (PoolJob E)) ∧
    s.collected = ↑(jobs.filterMap (fun j => j.outcome)) ∧
    runResult s =
      (if jobs.filterMap (fun j => j.outcome) = [] then none
        else some ↑(jobs.filterMap (fun j => j.outcome))) ∧
    (jobs = [] →
      PoolFinal (initPoolState workers jobs) ∧
      runResult (initPoolState workers jobs) = none) ∧
    1 ≤ Multiset.card (initPoolState workers jobs).workers := by
  obtain ⟨hcard, hsum, hcol⟩ := poolInv_reachable workers jobs s hreach
  obtain ⟨hq, hw⟩ := hfin
  have hrun : PoolState.running s = 0 := hw
  rw [hq, hrun] at hsum
  simp only [Multiset.coe_nil, zero_add, add_zero] at hsum
  have hfin2 : s.finished = (↑jobs : Multiset (PoolJob E)) := hsum
  have hcol2 : s.collected = ↑(jobs.filterMap (fun j => j.outcome)) := by
    rw [hcol, hfin2]
    simp
  refine ⟨hfin2, hcol2, ?_, ?_, ?_⟩
  · rw [runResult, hcol2]
    by_cases hz : jobs.filterMap (fun j => j.outcome) = []
    · simp [hz]
    · simp [hz, Multiset.coe_eq_zero]
  · intro hjobs
    subst hjobs
    refine ⟨⟨rfl, ?_⟩, ?_⟩
    · exact filterMap_id_replicate_none _
    · simp [runResult, initPoolState]
  · have := goAttempts_pos workers
    simp only [initPoolState, Multiset.card_replicate]
    unfold goWorkers
    split <;> omega

/-- Witness for C7: one worker (coerced from 0), one failing job, run to
completion along the trace assign-then-finish. -/
theorem c7_worker_run_collects_all_witness :
    (⟨[], {none}, {⟨0, some 5⟩}, {5}⟩ : PoolState Nat).finished =
      (↑[(⟨0, some 5⟩ : PoolJob Nat)] : Multiset (PoolJob Nat)) ∧
    (⟨[], {none}, {⟨0, some 5⟩}, {5}⟩ : PoolState Nat).collected =
      ↑([(⟨0, some 5⟩ : PoolJob Nat)].filterMap (fun j => j.outcome)) ∧
    runResult (⟨[], {none}, {⟨0, some 5⟩}, {5}⟩ : PoolState Nat) =
      (if [(⟨0, some 5⟩ : PoolJob Nat)].filterMap (fun j => j.outcome) = []
        then none
        else some
          ↑([(⟨0, some 5⟩ : PoolJob Nat)].filterMap (fun j => j.outcome))) ∧
    ([(⟨0, some 5⟩ : PoolJob Nat)] = [] →
      PoolFinal (initPoolState 0 [⟨0, some 5⟩]) ∧
      runResult (initPoolState (E := Nat) 0 [⟨0, some 5⟩]) = none) ∧
    1 ≤ Multiset.card (initPoolState (E := Nat) 0 [⟨0, some 5⟩]).workers := by
  have step1 : PoolStep (E := Nat) (initPoolState 0 [⟨0, some 5⟩])
      { queue := []
        workers := some ⟨0, some 5⟩ ::ₘ
          (initPoolState (E := Nat) 0 [⟨0, some 5⟩]).workers.erase none
        finished := (initPoolState (E := Nat) 0 [⟨0, some 5⟩]).finished
        collected := (initPoolState (E := Nat) 0 [⟨0, some 5⟩]).collected } :=
    PoolStep.assign _ ⟨0, some 5⟩ [] rfl (by decide)
  set s1 : PoolState Nat :=
    { queue := []
      workers := some ⟨0, some 5⟩ ::ₘ
        (initPoolState (E := Nat) 0 [⟨0, some 5⟩]).workers.erase none
      finished := (initPoolState (E := Nat) 0 [⟨0, some 5⟩]).finished
      collected := (initPoolState (E := Nat) 0 [⟨0, some 5⟩]).collected }
  have step2 : PoolStep (E := Nat) s1
      { queue := s1.queue
        workers := none ::ₘ s1.workers.erase (some ⟨0, some 5⟩)
        finished := ⟨0, some 5⟩ ::ₘ s1.finished
        collected := s1.collected +
          (match (⟨0, some 5⟩ : PoolJob Nat).outcome with
           | some e => {e} | none => 0) } :=
    PoolStep.finish s1 ⟨0, some 5⟩ (by decide)
  have hreach := Relation.ReflTransGen.tail
    (Relation.ReflTransGen.tail Relation.ReflTransGen.refl step1) step2
  have hstate :
      ({ queue := s1.queue
         workers := none ::ₘ s1.workers.erase (some ⟨0, some 5⟩)
         finished := ⟨0, some 5⟩ ::ₘ s1.finished
         collected := s1.collected +
           (match (⟨0, some 5⟩ : PoolJob Nat).outcome with
            | some e => {e} | none => 0) } : PoolState Nat) =
      (⟨[], {none}, {⟨0, some 5⟩}, {5}⟩ : PoolState Nat) := by decide
  rw [hstate] at hreach
  exact c7_worker_run_collects_all 0 [⟨0, some 5⟩] _ hreach ⟨rfl, by decide⟩

/-- C8: in every reachable state of `worker.Run` the jobs are executed by
a fixed bank of exactly `goWorkers W` long-lived workers, so the number of
concurrently running jobs never exceeds the (coerced) worker count. -/
theorem c8_bounded_concurrency {E : Type} [DecidableEq E] (workers : Int)
    (jobs : List (PoolJob E)) (s : PoolState E)
    (hreach : PoolReachable (initPoolState workers jobs) s) :
    Multiset.card s.workers = goWorkers workers ∧
    Multiset.card s.running ≤ goWorkers workers := by
  obtain ⟨hcard, _, _⟩ := poolInv_reachable workers jobs s hreach
  refine ⟨hcard, ?_⟩
  calc Multiset.card s.running ≤ Multiset.card s.workers :=
        card_filterMap_le_card _ _
    _ = goWorkers workers := hcard

/-- Witness for C8: after one assignment with 2 workers and 2 jobs, one
job runs and the bound 2 holds. -/
theorem c8_bounded_concurrency_witness :
    Multiset.card
        (some (⟨0, (none : Option Nat)⟩ : PoolJob Nat) ::ₘ
          (initPoolState (E := Nat) 2 [⟨0, none⟩, ⟨1, none⟩]).workers.erase
            none) = goWorkers 2 ∧
    Multiset.card
        (PoolState.running (E := Nat)
          { queue := [⟨1, none⟩]
            workers := some ⟨0, none⟩ ::ₘ
              (initPoolState (E := Nat) 2 [⟨0, none⟩, ⟨1, none⟩]).workers.erase
                none
            finished := 0
            collected := 0 }) ≤ goWorkers 2 := by
  have h := c8_bounded_concurrency (E := Nat) 2 [⟨0, none⟩, ⟨1, none⟩]
    { queue := [⟨1, none⟩]
      workers := some ⟨0, none⟩ ::ₘ
        (initPoolState (E := Nat) 2 [⟨0, none⟩, ⟨1, none⟩]).workers.erase none
      finished := 0
      collected := 0 }
    (Relation.ReflTransGen.tail Relation.ReflTransGen.refl
      (PoolStep.assign _ ⟨0, none⟩ [⟨1, none⟩] rfl (by decide)))
  exact h

/-- If the copy loop ends without a read error and the progress callback
is non-nil, the last progress invocation carries exactly the final written
byte count together with the declared total. -/
theorem copyLoop_success_last {E : Type} (clock : Nat → Int)
    (totalBytes : Int) :
    ∀ (steps : ReadTrace E) (acc : Nat) (last : Option Int) (k : Nat),
      (copyLoop clock true totalBytes steps acc last k).2.1 = none →
      (copyLoop clock true totalBytes steps acc last k).2.2.getLast? =
        some (((copyLoop clock true totalBytes steps acc last k).1 : Int),
          totalBytes) := by
  intro steps
  induction steps with
  | nil =>
    intro acc last k _
    simp [copyLoop]
  | cons st rest ih =>
    obtain ⟨n, rend⟩ := st
    intro acc last k herr
    cases rend with
    | none =>
      simp only [copyLoop] at herr ⊢
      have hlast := ih (acc + n) _ (k + 1) herr
      rw [List.getLast?_append, hlast]
      rfl
    | some re =>
      cases re with
      | eofEnd =>
        simp only [copyLoop] at herr ⊢
        rw [List.getLast?_append]
        rfl
      | errEnd e =>
        simp only [copyLoop] at herr
        cases herr

/-- C9: a transfer that ends successfully with a non-nil progress callback
invokes the callback a final time with `bytesWritten` equal to the total
bytes written to the destination — the value also returned in
`FileDownloadResult.BytesWritten` — and with `totalBytes` equal to the
source's declared length, or `-1` when no positive length was declared. -/
theorem c9_final_progress_callback {E : Type} (resp : GoResponse E)
    (clock : Nat → Int) (r : FileDownloadResult)
    (cbs : List (Int × Int))
    (hok : downloadToFileWithProgress resp clock true = .ok (r, cbs)) :
    cbs ≠ [] ∧
    cbs.getLast? = some (r.bytesWritten,
      if resp.contentLength ≤ 0 then -1 else resp.contentLength) := by
  unfold downloadToFileWithProgress at hok
  by_cases hst : resp.status < 200 ∨ 300 ≤ resp.status
  · rw [if_pos hst] at hok
    cases hok
  · rw [if_neg hst] at hok
    rcases hcl : copyLoop clock true
        (if resp.contentLength ≤ 0 then -1 else resp.contentLength)
        resp.body 0 none 0 with ⟨b, erropt, cbs2⟩
    rw [hcl] at hok
    cases erropt with
    | some e => cases hok
    | none =>
      have hlast := copyLoop_success_last clock
        (if resp.contentLength ≤ 0 then -1 else resp.contentLength)
        resp.body 0 none 0 (by rw [hcl])
      rw [hcl] at hlast
      injection hok with hok2
      injection hok2 with hr hcbs
      subst hcbs
      constructor
      · intro hn
        rw [hn] at hlast
        cases hlast
      · rw [hlast, ← hr]

/-- Witness for C9: a 200 response declaring 6 bytes delivered in chunks
of 4 and 2; the final callback reports 6 written of 6 total. -/
theorem c9_final_progress_callback_witness :
    ∃ (r : FileDownloadResult) (cbs : List (Int × Int)),
      downloadToFileWithProgress
          (⟨200, "audio/mpeg", 6, [(4, none), (2, some .eofEnd)]⟩ :
            GoResponse Unit)
          (fun k => 100 * k) true = .ok (r, cbs) ∧
      cbs ≠ [] ∧
      cbs.getLast? = some (r.bytesWritten,
        if (6 : Int) ≤ 0 then -1 else 6) := by
  have hok : downloadToFileWithProgress
      (⟨200, "audio/mpeg", 6, [(4, none), (2, some .eofEnd)]⟩ :
        GoResponse Unit)
      (fun k => 100 * k) true =
      .ok (⟨"audio/mpeg", 6⟩, [(4, 6), (6, 6)]) := by rfl
  refine ⟨⟨"audio/mpeg", 6⟩, [(4, 6), (6, 6)], hok, ?_⟩
  exact c9_final_progress_callback
    (⟨200, "audio/mpeg", 6, [(4, none), (2, some .eofEnd)]⟩ : GoResponse Unit)
    (fun k => 100 * k) ⟨"audio/mpeg", 6⟩ [(4, 6), (6, 6)] hok

end MSR
